import Mathlib

/-!
Shallow embedding of the feature-flag evaluation cache (`src/cache.py`) and of
the evaluation endpoint (`src/routers/flags.py`).

The Python store `_cache` is a `dict` keyed by the tuple `(flag_id, user_id)`;
CPython dicts preserve insertion order, keep a key's position on overwrite,
and iterate in that order.  We model the dict as an association list in
insertion order: `dict.get` is `lookup` (first match), `del` / `pop` is
`List.eraseP` on the key, `cache[key] = v` is `insertKey` (in-place overwrite
when the key is resident, append when fresh), `list(cache.items())` is the
list itself and `next(iter(cache))` is its head.  The monotonic clock
(`time.monotonic`, a float) is modelled as a rational number passed explicitly
to each operation; the module-level configuration `_max_size` / `_ttl` becomes
fields of the `Cache` state.  UUIDs are opaque, so `flag_id` is modelled as a
natural number; `user_id` stays a string.  The cached result dict is opaque to
the cache, so the store is polymorphic in the value type.
-/

namespace FlagCache

/-- `flag_id`: an opaque 128-bit UUID, modelled as a natural number. -/
abbrev FlagId := ℕ

/-- `user_id`: a string, compared by structural equality. -/
abbrev UserId := String

/-- `_make_key(flag_id, user_id)`: the composite cache key tuple. -/
abbrev Key := FlagId × UserId

/-- The store `_cache`: key to `(expiry_ts, result)`, in insertion order. -/
abbrev Store (α : Type) := List (Key × (ℚ × α))

/-- `_is_expired(expiry_ts)`, i.e. `time.monotonic() > expiry_ts`. -/
def is_expired (now expiry_ts : ℚ) : Bool := decide (expiry_ts < now)

/-- `key in _cache`. -/
def containsKey (k : Key) (l : Store α) : Bool :=
  l.any (fun p => decide (p.1 = k))

/-- `_cache.get(key)`: the entry stored under `k`, if any. -/
def lookup (k : Key) (l : Store α) : Option (ℚ × α) :=
  (l.find? (fun p => decide (p.1 = k))).map (·.2)

/-- `del _cache[key]` / `_cache.pop(key, None)`: drop the entry for `k`
(a dict holds each key at most once, so dropping the first match is exact). -/
def eraseKey (k : Key) (l : Store α) : Store α :=
  l.eraseP (fun p => decide (p.1 = k))

/-- `_cache[key] = v`: dict assignment.  An already-resident key keeps its
position and gets the new value; a fresh key is appended at the back. -/
def insertKey (k : Key) (v : ℚ × α) (l : Store α) : Store α :=
  if containsKey k l then l.map (fun p => if p.1 = k then (k, v) else p)
  else l ++ [(k, v)]

/-- The state of the `cache` module: the configuration constants
`_max_size = settings.cache_max_size`, `_ttl = settings.cache_ttl_seconds`
and the store `_cache`. -/
structure Cache (α : Type) where
  max_size : ℕ
  ttl : ℚ
  store : Store α

/-- The freshly imported module: `_cache = {}` with the given configuration. -/
def Cache.empty (α : Type) (max_size : ℕ) (ttl : ℚ) : Cache α :=
  ⟨max_size, ttl, []⟩

/-- `get(flag_id, user_id)`.  Returns the cached result (or `none`) together
with the possibly-updated state: a resident entry whose expiry has passed is
deleted as a side effect and `none` is returned. -/
def get (c : Cache α) (now : ℚ) (flag_id : FlagId) (user_id : UserId) :
    Option α × Cache α :=
  let key := (flag_id, user_id)
  match lookup key c.store with
  | none => (none, c)
  | some (expiry_ts, result) =>
    if is_expired now expiry_ts then
      (none, { c with store := eraseKey key c.store })
    else (some result, c)

/-- `set_result(flag_id, user_id, result)`.  Computes
`expiry_ts = time.monotonic() + _ttl`; when the store is at or over capacity
and the key is fresh, first deletes the first expired entry in iteration
order if one exists (`for ... if _is_expired: del; break`), otherwise pops
the front key (`_cache.pop(next(iter(_cache)))`, guarded by `if _cache and
key not in _cache`); finally performs the dict assignment. -/
def set_result (c : Cache α) (now : ℚ) (flag_id : FlagId) (user_id : UserId)
    (result : α) : Cache α :=
  let key := (flag_id, user_id)
  let expiry_ts := now + c.ttl
  let store₁ :=
    if c.store.length ≥ c.max_size ∧ containsKey key c.store = false then
      if c.store.any (fun p => is_expired now p.2.1) then
        c.store.eraseP (fun p => is_expired now p.2.1)
      else if c.store.isEmpty = false ∧ containsKey key c.store = false then
        c.store.tail
      else c.store
    else c.store
  { c with store := insertKey key (expiry_ts, result) store₁ }

/-- `invalidate_override(flag_id, user_id)`: `_cache.pop(key, None)`. -/
def invalidate_override (c : Cache α) (flag_id : FlagId) (user_id : UserId) :
    Cache α :=
  { c with store := eraseKey (flag_id, user_id) c.store }

/-- `invalidate_flag(flag_id)`: collect every resident key whose first
component matches, then delete each collected key from the dict. -/
def invalidate_flag (c : Cache α) (flag_id : FlagId) : Cache α :=
  let to_remove := (c.store.map (·.1)).filter (fun k => decide (k.1 = flag_id))
  { c with store := to_remove.foldl (fun s k => eraseKey k s) c.store }

/-- One client call into the cache module, tagged with the monotonic clock
reading at call time. -/
inductive Op (α : Type) where
  | get (now : ℚ) (flag_id : FlagId) (user_id : UserId)
  | set (now : ℚ) (flag_id : FlagId) (user_id : UserId) (result : α)
  | invalidate_one (flag_id : FlagId) (user_id : UserId)
  | invalidate_all_for_flag (flag_id : FlagId)

/-- Run one operation against the cache state. -/
def applyOp (c : Cache α) : Op α → Cache α
  | .get now f u => (get c now f u).2
  | .set now f u r => set_result c now f u r
  | .invalidate_one f u => invalidate_override c f u
  | .invalidate_all_for_flag f => invalidate_flag c f

/-- Run a finite sequence of operations in order. -/
def applyOps (c : Cache α) (ops : List (Op α)) : Cache α :=
  ops.foldl applyOp c

/-- Does this operation call `set_result` on the key `k`? -/
def Op.setsKey : Op α → Key → Bool
  | .set _ f u _, k => decide ((f, u) = k)
  | _, _ => false

end FlagCache

namespace FlagRouter

open FlagCache

/-- A row of the `feature_flags` table, the fields `evaluate` reads. -/
structure FeatureFlag where
  id : FlagId
  name : String
  is_enabled : Bool

/-- A row of the `flag_user_overrides` table, the fields `evaluate` reads. -/
structure FlagUserOverride where
  flag_id : FlagId
  user_id : UserId
  is_enabled : Bool

/-- A read snapshot of the database visible to one `evaluate` request. -/
structure DB where
  flags : List FeatureFlag
  overrides : List FlagUserOverride

/-- `select(FeatureFlag).where(FeatureFlag.name == name)` followed by
`scalar_one_or_none()` (the `name` column is unique). -/
def DB.findFlagByName (db : DB) (name : String) : Option FeatureFlag :=
  db.flags.find? (fun f => decide (f.name = name))

/-- `select(FlagUserOverride).where(flag_id == .., user_id == ..)` followed by
`scalar_one_or_none()` (the pair is unique). -/
def DB.findOverride (db : DB) (flag_id : FlagId) (user_id : UserId) :
    Option FlagUserOverride :=
  db.overrides.find? (fun o => decide (o.flag_id = flag_id ∧ o.user_id = user_id))

/-- The response dict built by `evaluate_flag`. -/
structure EvalResult where
  enabled : Bool
  flag_id : FlagId
  flag_name : String
  user_id : UserId
  source : String
deriving DecidableEq

/-- An observable step of one `evaluate` request: a database round-trip or a
cache-module call, in program order. -/
inductive Ev where
  | db_flag_query (name : String)
  | cache_get (flag_id : FlagId) (user_id : UserId)
  | db_override_query (flag_id : FlagId) (user_id : UserId)
  | cache_set (flag_id : FlagId) (user_id : UserId)
deriving DecidableEq

/-- Is this step a database round-trip? -/
def Ev.isDb : Ev → Bool
  | .db_flag_query _ => true
  | .db_override_query _ _ => true
  | _ => false

/-- Is this step a cache lookup? -/
def Ev.isCacheGet : Ev → Bool
  | .cache_get _ _ => true
  | _ => false

/-- `GET /flags/evaluate`: resolve the flag by name (404 when absent), consult
the cache, and on a miss query the override row, build the response and
populate the cache.  Returns the HTTP outcome, the cache state after the
request, and the trace of database and cache steps in program order. -/
def evaluate_flag (db : DB) (c : Cache EvalResult) (now : ℚ)
    (flag_name : String) (user_id : UserId) :
    Except ℕ EvalResult × Cache EvalResult × List Ev :=
  match db.findFlagByName flag_name with
  | none => (.error 404, c, [.db_flag_query flag_name])
  | some flag =>
    match FlagCache.get c now flag.id user_id with
    | (some cached, c₁) =>
      (.ok cached, c₁, [.db_flag_query flag_name, .cache_get flag.id user_id])
    | (none, c₁) =>
      let (enabled, source) :=
        match db.findOverride flag.id user_id with
        | some o => (o.is_enabled, "override")
        | none => (flag.is_enabled, "default")
      let response : EvalResult :=
        ⟨enabled, flag.id, flag_name, user_id, source⟩
      (.ok response, set_result c₁ now flag.id user_id response,
        [.db_flag_query flag_name, .cache_get flag.id user_id,
         .db_override_query flag.id user_id, .cache_set flag.id user_id])

/-- "The cache is consulted before any database round-trip": no database step
occurs before the first cache lookup of the trace. -/
def cacheConsultedBeforeDb : List Ev → Bool
  | [] => true
  | e :: rest =>
    if e.isCacheGet then true
    else if e.isDb then false
    else cacheConsultedBeforeDb rest

end FlagRouter

namespace FlagCache

theorem containsKey_eq_false_iff {α : Type} (k : Key) (l : Store α) :
    containsKey k l = false ↔ ∀ p ∈ l, p.1 ≠ k := by
  simp only [containsKey, List.any_eq_false, decide_eq_true_eq]

theorem containsKey_eq_true_iff {α : Type} (k : Key) (l : Store α) :
    containsKey k l = true ↔ ∃ p ∈ l, p.1 = k := by
  simp only [containsKey, List.any_eq_true, decide_eq_true_eq]

theorem lookup_eq_none_of_not_contains {α : Type} {k : Key} {l : Store α}
    (h : containsKey k l = false) : lookup k l = none := by
  have hf : l.find? (fun p => decide (p.1 = k)) = none :=
    List.find?_eq_none.mpr
      (fun x hx => by simpa using (containsKey_eq_false_iff k l).mp h x hx)
  simp [lookup, hf]

theorem containsKey_sublist {α : Type} {k : Key} {l₁ l₂ : Store α}
    (hs : l₁.Sublist l₂) (h : containsKey k l₂ = false) :
    containsKey k l₁ = false := by
  rw [containsKey_eq_false_iff] at h ⊢
  exact fun p hp => h p (hs.mem hp)

theorem keys_insertKey_of_contains {α : Type} {k : Key} (v : ℚ × α) {l : Store α}
    (h : containsKey k l = true) :
    (insertKey k v l).map (·.1) = l.map (·.1) := by
  unfold insertKey
  rw [h]
  simp only [if_true, List.map_map]
  refine List.map_congr_left ?_
  intro p _
  by_cases hp : p.1 = k
  · simp [hp]
  · simp [hp]

theorem containsKey_mem_keys {α : Type} (k : Key) (l : Store α) :
    containsKey k l = true ↔ k ∈ l.map (·.1) := by
  rw [containsKey_eq_true_iff, List.mem_map]

theorem containsKey_congr_keys {α : Type} (k : Key) {l₁ l₂ : Store α}
    (h : l₁.map (·.1) = l₂.map (·.1)) : containsKey k l₁ = containsKey k l₂ := by
  rw [Bool.eq_iff_iff, containsKey_mem_keys, containsKey_mem_keys, h]

theorem length_insertKey_of_contains {α : Type} {k : Key} (v : ℚ × α) {l : Store α}
    (h : containsKey k l = true) : (insertKey k v l).length = l.length := by
  unfold insertKey
  rw [h]
  simp

theorem length_insertKey_of_not_contains {α : Type} {k : Key} (v : ℚ × α) {l : Store α}
    (h : containsKey k l = false) : (insertKey k v l).length = l.length + 1 := by
  unfold insertKey
  rw [h]
  simp

theorem lookup_insertKey_self {α : Type} (k : Key) (v : ℚ × α) (l : Store α) :
    lookup k (insertKey k v l) = some v := by
  by_cases h : containsKey k l = true
  · rw [insertKey, if_pos h]
    unfold lookup
    induction l with
    | nil =>
      rw [containsKey, List.any_nil] at h
      exact absurd h (by decide)
    | cons p l ih =>
      by_cases hp : p.1 = k
      · rw [List.map_cons, if_pos hp, List.find?_cons_of_pos _ (by simp)]
        rfl
      · rw [List.map_cons, if_neg hp, List.find?_cons_of_neg _ (by simpa using hp)]
        refine ih ?_
        rw [containsKey, List.any_cons, decide_eq_false hp, Bool.false_or] at h
        exact h
  · rw [insertKey, if_neg h]
    have hf : l.find? (fun p => decide (p.1 = k)) = none :=
      List.find?_eq_none.mpr (fun x hx => by
        simpa using (containsKey_eq_false_iff k l).mp (eq_false_of_ne_true h) x hx)
    unfold lookup
    rw [List.find?_append, hf, Option.none_or,
      List.find?_cons_of_pos _ (by simp)]
    rfl

end FlagCache

namespace FlagCache

theorem length_eraseP_of_any {β : Type} {p : β → Bool} {l : List β}
    (h : l.any p = true) : (l.eraseP p).length = l.length - 1 := by
  obtain ⟨x, hx, hpx⟩ := List.any_eq_true.mp h
  exact List.length_eraseP_of_mem hx hpx

theorem eraseP_sublist_store {α : Type} (p : Key × ℚ × α → Bool) (l : Store α) :
    (l.eraseP p).Sublist l :=
  List.eraseP_sublist l

theorem foldl_eraseKey_sublist {α : Type} (ks : List Key) (l : Store α) :
    (ks.foldl (fun s k => eraseKey k s) l).Sublist l := by
  induction ks generalizing l with
  | nil => exact List.Sublist.refl l
  | cons k ks ih =>
    exact (ih (eraseKey k l)).trans (List.eraseP_sublist l)

theorem set_result_store {α : Type} (c : Cache α) (now : ℚ) (f : FlagId)
    (u : UserId) (r : α) :
    (set_result c now f u r).store =
      insertKey (f, u) (now + c.ttl, r)
        (if c.store.length ≥ c.max_size ∧ containsKey (f, u) c.store = false then
          if c.store.any (fun p => is_expired now p.2.1) then
            c.store.eraseP (fun p => is_expired now p.2.1)
          else if c.store.isEmpty = false ∧ containsKey (f, u) c.store = false then
            c.store.tail
          else c.store
        else c.store) := rfl

theorem set_result_max_size {α : Type} (c : Cache α) (now : ℚ) (f : FlagId)
    (u : UserId) (r : α) : (set_result c now f u r).max_size = c.max_size := rfl

theorem set_result_ttl {α : Type} (c : Cache α) (now : ℚ) (f : FlagId)
    (u : UserId) (r : α) : (set_result c now f u r).ttl = c.ttl := rfl

theorem get_of_lookup_none {α : Type} {c : Cache α} {now : ℚ} {f : FlagId}
    {u : UserId} (h : lookup (f, u) c.store = none) :
    get c now f u = (none, c) := by
  simp only [get]
  rw [h]

theorem get_of_lookup_expired {α : Type} {c : Cache α} {now : ℚ} {f : FlagId}
    {u : UserId} {e : ℚ} {r : α} (h : lookup (f, u) c.store = some (e, r))
    (he : is_expired now e = true) :
    get c now f u = (none, { c with store := eraseKey (f, u) c.store }) := by
  simp only [get]
  rw [h]
  exact if_pos he

theorem get_of_lookup_fresh {α : Type} {c : Cache α} {now : ℚ} {f : FlagId}
    {u : UserId} {e : ℚ} {r : α} (h : lookup (f, u) c.store = some (e, r))
    (he : is_expired now e = false) :
    get c now f u = (some r, c) := by
  simp only [get]
  rw [h]
  exact if_neg (fun hc => by rw [he] at hc; cases hc)

theorem lookup_eraseKey_self {α : Type} {k : Key} {l : Store α}
    (h : (l.map (·.1)).Nodup) : lookup k (eraseKey k l) = none := by
  induction l with
  | nil => rfl
  | cons p l ih =>
    rw [List.map_cons, List.nodup_cons] at h
    by_cases hp : p.1 = k
    · rw [eraseKey, List.eraseP_cons_of_pos (by simpa using hp)]
      apply lookup_eq_none_of_not_contains
      refine eq_false_of_ne_true (fun hc => ?_)
      exact (hp ▸ h.1) ((containsKey_mem_keys k l).mp hc)
    · rw [eraseKey, List.eraseP_cons_of_neg (by simpa using hp)]
      rw [lookup, List.find?_cons_of_neg _ (by simpa using hp)]
      exact ih h.2

theorem eraseKey_eq_filter {α : Type} {k : Key} {l : Store α}
    (h : (l.map (·.1)).Nodup) :
    eraseKey k l = l.filter (fun p => decide (p.1 ≠ k)) := by
  induction l with
  | nil => rfl
  | cons p l ih =>
    rw [List.map_cons, List.nodup_cons] at h
    by_cases hp : p.1 = k
    · rw [eraseKey, List.eraseP_cons_of_pos (by simpa using hp),
        List.filter_cons_of_neg (by simpa using hp)]
      symm
      rw [List.filter_eq_self]
      intro a ha
      simp only [decide_eq_true_eq]
      intro hak
      exact (hp ▸ h.1) (List.mem_map.mpr ⟨a, ha, hak⟩)
    · rw [eraseKey, List.eraseP_cons_of_neg (by simpa using hp),
        List.filter_cons_of_pos (by simpa using hp)]
      rw [← ih h.2]
      rfl

end FlagCache

namespace FlagCache

theorem set_result_length_le {α : Type} {c : Cache α} (now : ℚ) (f : FlagId)
    (u : UserId) (r : α) (hN : 1 ≤ c.max_size)
    (hlen : c.store.length ≤ c.max_size) :
    (set_result c now f u r).store.length ≤ c.max_size := by
  rw [set_result_store]
  by_cases hc : containsKey (f, u) c.store = true
  · have hcond : ¬(c.store.length ≥ c.max_size ∧ containsKey (f, u) c.store = false) := by
      rintro ⟨-, hfc⟩
      rw [hc] at hfc
      cases hfc
    rw [if_neg hcond, length_insertKey_of_contains _ hc]
    exact hlen
  · have hc' : containsKey (f, u) c.store = false := eq_false_of_ne_true hc
    by_cases hge : c.store.length ≥ c.max_size
    · rw [if_pos ⟨hge, hc'⟩]
      have hlen_eq : c.store.length = c.max_size := le_antisymm hlen hge
      have hne : c.store ≠ [] := by
        intro h0
        rw [h0] at hlen_eq
        simp only [List.length_nil] at hlen_eq
        omega
      by_cases hexp : c.store.any (fun p => is_expired now p.2.1) = true
      · rw [if_pos hexp]
        have hsub : containsKey (f, u) (c.store.eraseP (fun p => is_expired now p.2.1)) = false :=
          containsKey_sublist (List.eraseP_sublist _) hc'
        rw [length_insertKey_of_not_contains _ hsub, length_eraseP_of_any hexp]
        omega
      · rw [if_neg hexp]
        have hemp : c.store.isEmpty = false := by
          cases hcs : c.store with
          | nil => exact absurd hcs hne
          | cons a l => rfl
        rw [if_pos ⟨hemp, hc'⟩]
        have hsub : containsKey (f, u) c.store.tail = false :=
          containsKey_sublist (List.tail_sublist _) hc'
        rw [length_insertKey_of_not_contains _ hsub, List.length_tail]
        omega
    · rw [if_neg (fun hcond => hge hcond.1), length_insertKey_of_not_contains _ hc']
      omega

theorem set_result_length_at_capacity {α : Type} {c : Cache α} (now : ℚ)
    (f : FlagId) (u : UserId) (r : α)
    (hc : containsKey (f, u) c.store = false)
    (hge : c.max_size ≤ c.store.length) (hpos : 0 < c.store.length) :
    (set_result c now f u r).store.length = c.store.length := by
  rw [set_result_store, if_pos ⟨hge, hc⟩]
  have hne : c.store ≠ [] := by
    intro h0
    rw [h0] at hpos
    simp at hpos
  by_cases hexp : c.store.any (fun p => is_expired now p.2.1) = true
  · rw [if_pos hexp]
    have hsub : containsKey (f, u) (c.store.eraseP (fun p => is_expired now p.2.1)) = false :=
      containsKey_sublist (List.eraseP_sublist _) hc
    rw [length_insertKey_of_not_contains _ hsub, length_eraseP_of_any hexp]
    omega
  · rw [if_neg hexp]
    have hemp : c.store.isEmpty = false := by
      cases hcs : c.store with
      | nil => exact absurd hcs hne
      | cons a l => rfl
    rw [if_pos ⟨hemp, hc⟩]
    have hsub : containsKey (f, u) c.store.tail = false :=
      containsKey_sublist (List.tail_sublist _) hc
    rw [length_insertKey_of_not_contains _ hsub, List.length_tail]
    omega

theorem applyOp_max_size {α : Type} (c : Cache α) (op : Op α) :
    (applyOp c op).max_size = c.max_size := by
  cases op with
  | get now f u =>
    show (get c now f u).2.max_size = c.max_size
    rcases hl : lookup (f, u) c.store with _ | ⟨e, r⟩
    · rw [get_of_lookup_none hl]
    · cases he : is_expired now e
      · rw [get_of_lookup_fresh hl he]
      · rw [get_of_lookup_expired hl he]
  | set now f u r => rfl
  | invalidate_one f u => rfl
  | invalidate_all_for_flag f => rfl

theorem applyOp_ttl {α : Type} (c : Cache α) (op : Op α) :
    (applyOp c op).ttl = c.ttl := by
  cases op with
  | get now f u =>
    show (get c now f u).2.ttl = c.ttl
    rcases hl : lookup (f, u) c.store with _ | ⟨e, r⟩
    · rw [get_of_lookup_none hl]
    · cases he : is_expired now e
      · rw [get_of_lookup_fresh hl he]
      · rw [get_of_lookup_expired hl he]
  | set now f u r => rfl
  | invalidate_one f u => rfl
  | invalidate_all_for_flag f => rfl

theorem applyOp_length_le {α : Type} {c : Cache α} (op : Op α)
    (hN : 1 ≤ c.max_size) (hlen : c.store.length ≤ c.max_size) :
    (applyOp c op).store.length ≤ c.max_size := by
  cases op with
  | get now f u =>
    show (get c now f u).2.store.length ≤ _
    rcases hl : lookup (f, u) c.store with _ | ⟨e, r⟩
    · rw [get_of_lookup_none hl]
      exact hlen
    · cases he : is_expired now e
      · rw [get_of_lookup_fresh hl he]
        exact hlen
      · rw [get_of_lookup_expired hl he]
        exact le_trans (List.Sublist.length_le (List.eraseP_sublist _)) hlen
  | set now f u r => exact set_result_length_le now f u r hN hlen
  | invalidate_one f u =>
    exact le_trans (List.Sublist.length_le (List.eraseP_sublist _)) hlen
  | invalidate_all_for_flag f =>
    exact le_trans (List.Sublist.length_le (foldl_eraseKey_sublist _ _)) hlen

theorem applyOps_length_le {α : Type} {c : Cache α} (ops : List (Op α))
    (hN : 1 ≤ c.max_size) (hlen : c.store.length ≤ c.max_size) :
    (applyOps c ops).store.length ≤ c.max_size := by
  induction ops generalizing c with
  | nil => exact hlen
  | cons op ops ih =>
    have hms := applyOp_max_size c op
    have h1 := applyOp_length_le op hN hlen
    have hN' : 1 ≤ (applyOp c op).max_size := by rw [hms]; exact hN
    have h1' : (applyOp c op).store.length ≤ (applyOp c op).max_size := by
      rw [hms]; exact h1
    have h2 := ih hN' h1'
    rw [hms] at h2
    exact h2

end FlagCache

namespace FlagCache

theorem foldl_set_config {α : Type} (xs : List ℕ) (c : Cache α) (v : α) :
    (xs.foldl (fun c i => set_result c 0 i "u" v) c).max_size = c.max_size
      ∧ (xs.foldl (fun c i => set_result c 0 i "u" v) c).ttl = c.ttl := by
  induction xs generalizing c with
  | nil => exact ⟨rfl, rfl⟩
  | cons x xs ih =>
    rw [List.foldl_cons]
    exact ⟨(ih _).1, (ih _).2⟩

theorem insert_distinct_store {α : Type} (N : ℕ) (ttl : ℚ) (v : α) :
    ∀ j, j ≤ N →
      ((List.range j).foldl (fun c i => set_result c 0 i "u" v)
          (Cache.empty α N ttl)).store
        = (List.range j).map (fun i => ((i, "u"), (ttl, v))) := by
  intro j
  induction j with
  | zero => intro _; rfl
  | succ j ih =>
    intro hj
    rw [List.range_succ, List.foldl_append, List.foldl_cons, List.foldl_nil,
      List.map_append]
    have hstore := ih (Nat.le_of_succ_le hj)
    have hms := (foldl_set_config (List.range j) (Cache.empty α N ttl) v).1
    have httl := (foldl_set_config (List.range j) (Cache.empty α N ttl) v).2
    have hlen : ((List.range j).foldl (fun c i => set_result c 0 i "u" v)
        (Cache.empty α N ttl)).store.length = j := by
      rw [hstore, List.length_map, List.length_range]
    have hcont : containsKey (j, "u")
        ((List.range j).foldl (fun c i => set_result c 0 i "u" v)
          (Cache.empty α N ttl)).store = false := by
      rw [hstore, containsKey_eq_false_iff]
      intro p hp
      obtain ⟨i, hi, hpe⟩ := List.mem_map.mp hp
      rw [← hpe]
      intro hcontra
      have : i = j := congrArg Prod.fst hcontra
      rw [List.mem_range] at hi
      omega
    rw [set_result_store]
    have hnotge : ¬(((List.range j).foldl (fun c i => set_result c 0 i "u" v)
          (Cache.empty α N ttl)).store.length
        ≥ ((List.range j).foldl (fun c i => set_result c 0 i "u" v)
          (Cache.empty α N ttl)).max_size
        ∧ containsKey (j, "u")
          ((List.range j).foldl (fun c i => set_result c 0 i "u" v)
            (Cache.empty α N ttl)).store = false) := by
      rintro ⟨hge, -⟩
      rw [hlen, hms] at hge
      show False
      have : (Cache.empty α N ttl).max_size = N := rfl
      rw [this] at hge
      omega
    rw [if_neg hnotge, insertKey, if_neg (by rw [hcont]; exact fun h => Bool.noConfusion h),
      hstore, httl]
    have : (Cache.empty α N ttl).ttl = ttl := rfl
    rw [this, zero_add]
    rfl

end FlagCache

namespace FlagCache

theorem insert_overflow_length {α : Type} (N : ℕ) (ttl : ℚ) (v : α)
    (hN : 1 ≤ N) :
    ((List.range (N + 1)).foldl (fun c i => set_result c 0 i "u" v)
        (Cache.empty α N ttl)).store.length = N := by
  rw [List.range_succ, List.foldl_append, List.foldl_cons, List.foldl_nil]
  have hstore := insert_distinct_store (α := α) N ttl v N le_rfl
  have hms := (foldl_set_config (List.range N) (Cache.empty α N ttl) v).1
  generalize hc : (List.range N).foldl (fun c i => set_result c 0 i "u" v)
      (Cache.empty α N ttl) = cN at hstore hms
  have hmsN : cN.max_size = N := hms
  have hlen : cN.store.length = N := by
    rw [hstore, List.length_map, List.length_range]
  have hcont : containsKey (N, "u") cN.store = false := by
    rw [hstore, containsKey_eq_false_iff]
    intro p hp
    obtain ⟨i, hi, hpe⟩ := List.mem_map.mp hp
    rw [← hpe]
    intro hcontra
    have : i = N := congrArg Prod.fst hcontra
    rw [List.mem_range] at hi
    omega
  have hge : cN.max_size ≤ cN.store.length := by
    rw [hmsN, hlen]
  have hpos : 0 < cN.store.length := by
    rw [hlen]
    omega
  rw [set_result_length_at_capacity 0 N "u" v hcont hge hpos, hlen]

end FlagCache

namespace FlagCache

theorem nodupKeys_sublist {α : Type} {l₁ l₂ : Store α} (hs : l₁.Sublist l₂)
    (h : (l₂.map (·.1)).Nodup) : (l₁.map (·.1)).Nodup :=
  (hs.map _).nodup h

theorem nodupKeys_insertKey {α : Type} (k : Key) (v : ℚ × α) {l : Store α}
    (h : (l.map (·.1)).Nodup) : ((insertKey k v l).map (·.1)).Nodup := by
  by_cases hc : containsKey k l = true
  · rw [keys_insertKey_of_contains v hc]
    exact h
  · rw [insertKey, if_neg hc, List.map_append]
    rw [List.nodup_append]
    refine ⟨h, List.nodup_singleton k, ?_⟩
    intro a ha hb
    have hak : a = k := by simpa using hb
    exact absurd ((containsKey_mem_keys k l).mpr (hak ▸ ha))
      (fun hct => by rw [hct] at hc; exact hc rfl)

theorem nodupKeys_set_result {α : Type} {c : Cache α} (now : ℚ) (f : FlagId)
    (u : UserId) (r : α) (h : (c.store.map (·.1)).Nodup) :
    ((set_result c now f u r).store.map (·.1)).Nodup := by
  rw [set_result_store]
  refine nodupKeys_insertKey _ _ ?_
  split
  · split
    · exact nodupKeys_sublist (List.eraseP_sublist _) h
    · split
      · exact nodupKeys_sublist (List.tail_sublist _) h
      · exact h
  · exact h

theorem containsKey_eraseKey_self {α : Type} {k : Key} {l : Store α}
    (h : (l.map (·.1)).Nodup) : containsKey k (eraseKey k l) = false := by
  rw [eraseKey_eq_filter h]
  refine eq_false_of_ne_true (fun hc => ?_)
  obtain ⟨p, hp, hpk⟩ := (containsKey_eq_true_iff _ _).mp hc
  rw [List.mem_filter] at hp
  exact absurd hpk (by simpa using hp.2)

theorem eraseKey_of_not_contains {α : Type} {k : Key} {l : Store α}
    (h : containsKey k l = false) : eraseKey k l = l := by
  rw [eraseKey]
  apply List.eraseP_of_forall_not
  intro a ha
  simpa using (containsKey_eq_false_iff k l).mp h a ha

theorem containsKey_insertKey_of_ne {α : Type} {k kn : Key} (v : ℚ × α)
    (hne : kn ≠ k) (l : Store α) :
    containsKey k (insertKey kn v l) = containsKey k l := by
  by_cases hc : containsKey kn l = true
  · exact containsKey_congr_keys k (keys_insertKey_of_contains v hc)
  · rw [insertKey, if_neg hc, containsKey, List.any_append]
    have hsing : List.any [(kn, v)] (fun p => decide (p.1 = k)) = false := by
      simp [hne]
    rw [hsing, Bool.or_false]
    rfl

theorem containsKey_applyOp_of_not_sets {α : Type} {c : Cache α} {k : Key}
    (op : Op α) (hop : op.setsKey k = false)
    (h : containsKey k c.store = false) :
    containsKey k (applyOp c op).store = false := by
  cases op with
  | get now f u =>
    show containsKey k (get c now f u).2.store = false
    rcases hl : lookup (f, u) c.store with _ | ⟨e, r⟩
    · rw [get_of_lookup_none hl]
      exact h
    · cases he : is_expired now e
      · rw [get_of_lookup_fresh hl he]
        exact h
      · rw [get_of_lookup_expired hl he]
        exact containsKey_sublist (List.eraseP_sublist _) h
  | set now f u r =>
    have hk : (f, u) ≠ k := by simpa [Op.setsKey] using hop
    show containsKey k (set_result c now f u r).store = false
    rw [set_result_store, containsKey_insertKey_of_ne _ hk]
    split
    · split
      · exact containsKey_sublist (List.eraseP_sublist _) h
      · split
        · exact containsKey_sublist (List.tail_sublist _) h
        · exact h
    · exact h
  | invalidate_one f u =>
    exact containsKey_sublist (List.eraseP_sublist _) h
  | invalidate_all_for_flag f =>
    exact containsKey_sublist (foldl_eraseKey_sublist _ _) h

theorem containsKey_applyOps_of_not_sets {α : Type} {c : Cache α} {k : Key}
    (ops : List (Op α)) (hops : ∀ op ∈ ops, op.setsKey k = false)
    (h : containsKey k c.store = false) :
    containsKey k (applyOps c ops).store = false := by
  induction ops generalizing c with
  | nil => exact h
  | cons op ops ih =>
    exact ih (fun o ho => hops o (List.mem_cons_of_mem op ho))
      (containsKey_applyOp_of_not_sets op (hops op (List.mem_cons_self op ops)) h)

end FlagCache

namespace FlagCache

theorem foldl_eraseKey_cons_of_ne {α : Type} {ks : List Key} {q : Key × ℚ × α}
    (hne : ∀ k ∈ ks, k ≠ q.1) (l : Store α) :
    ks.foldl (fun s k => eraseKey k s) (q :: l)
      = q :: ks.foldl (fun s k => eraseKey k s) l := by
  induction ks generalizing l with
  | nil => rfl
  | cons k ks ih =>
    have hq : eraseKey k (q :: l) = q :: eraseKey k l := by
      rw [eraseKey, List.eraseP_cons_of_neg]
      · rfl
      · simp only [decide_eq_true_eq]
        exact fun hqe => (hne k (List.mem_cons_self k ks)) hqe.symm
    rw [List.foldl_cons, List.foldl_cons, hq]
    exact ih (fun x hx => hne x (List.mem_cons_of_mem k hx)) (eraseKey k l)

theorem foldl_eraseKey_filter_keys {α : Type} (fid : FlagId) :
    ∀ (l : Store α), (l.map (·.1)).Nodup →
      ((l.map (·.1)).filter (fun k => decide (k.1 = fid))).foldl
          (fun s k => eraseKey k s) l
        = l.filter (fun p => decide (p.1.1 ≠ fid)) := by
  intro l
  induction l with
  | nil => intro _; rfl
  | cons p l ih =>
    intro h
    rw [List.map_cons, List.nodup_cons] at h
    by_cases hp : p.1.1 = fid
    · rw [List.map_cons, List.filter_cons_of_pos (by simpa using hp),
        List.foldl_cons]
      have herase : eraseKey p.1 (p :: l) = l := by
        rw [eraseKey, List.eraseP_cons_of_pos (by simp)]
      rw [herase, List.filter_cons_of_neg (by simpa using hp)]
      exact ih h.2
    · rw [List.map_cons, List.filter_cons_of_neg (by simpa using hp),
        List.filter_cons_of_pos (by simpa using hp)]
      have hne : ∀ k ∈ (l.map (·.1)).filter (fun k => decide (k.1 = fid)), k ≠ p.1 := by
        intro k hk
        rw [List.mem_filter] at hk
        intro hkp
        exact hp (by rw [← hkp]; simpa using hk.2)
      rw [foldl_eraseKey_cons_of_ne hne l, ih h.2]

end FlagCache

namespace FlagRouter

open FlagCache

theorem evaluate_flag_of_no_flag {db : DB} {c : Cache EvalResult} {now : ℚ}
    {n : String} {u : UserId} (h : db.findFlagByName n = none) :
    evaluate_flag db c now n u = (.error 404, c, [.db_flag_query n]) := by
  unfold evaluate_flag
  rw [h]

theorem evaluate_flag_of_hit {db : DB} {c : Cache EvalResult} {now : ℚ}
    {n : String} {u : UserId} {flag : FeatureFlag} {r : EvalResult}
    {c₁ : Cache EvalResult} (hf : db.findFlagByName n = some flag)
    (hg : FlagCache.get c now flag.id u = (some r, c₁)) :
    evaluate_flag db c now n u
      = (.ok r, c₁, [.db_flag_query n, .cache_get flag.id u]) := by
  unfold evaluate_flag
  simp only [hf, hg]

theorem evaluate_flag_of_miss_override {db : DB} {c : Cache EvalResult}
    {now : ℚ} {n : String} {u : UserId} {flag : FeatureFlag}
    {c₁ : Cache EvalResult} {o : FlagUserOverride}
    (hf : db.findFlagByName n = some flag)
    (hg : FlagCache.get c now flag.id u = (none, c₁))
    (ho : db.findOverride flag.id u = some o) :
    evaluate_flag db c now n u
      = (.ok ⟨o.is_enabled, flag.id, n, u, "override"⟩,
         set_result c₁ now flag.id u ⟨o.is_enabled, flag.id, n, u, "override"⟩,
         [.db_flag_query n, .cache_get flag.id u,
          .db_override_query flag.id u, .cache_set flag.id u]) := by
  unfold evaluate_flag
  simp only [hf, hg, ho]

theorem evaluate_flag_of_miss_default {db : DB} {c : Cache EvalResult}
    {now : ℚ} {n : String} {u : UserId} {flag : FeatureFlag}
    {c₁ : Cache EvalResult}
    (hf : db.findFlagByName n = some flag)
    (hg : FlagCache.get c now flag.id u = (none, c₁))
    (ho : db.findOverride flag.id u = none) :
    evaluate_flag db c now n u
      = (.ok ⟨flag.is_enabled, flag.id, n, u, "default"⟩,
         set_result c₁ now flag.id u ⟨flag.is_enabled, flag.id, n, u, "default"⟩,
         [.db_flag_query n, .cache_get flag.id u,
          .db_override_query flag.id u, .cache_set flag.id u]) := by
  unfold evaluate_flag
  simp only [hf, hg, ho]

end FlagRouter

open FlagCache FlagRouter

/-- C1: starting from an empty cache with `max_size = N ≥ 1`, every finite
sequence of `get`, `set`, `invalidate_one` and `invalidate_all_for_flag`
operations leaves at most `N` resident entries; a `set` of a non-resident key
while at least `N` entries are resident removes exactly one entry before
inserting (so the resident count is unchanged); and inserting `N + 1`
distinct never-expiring keys into the empty cache leaves exactly `N`
resident. -/
theorem cache_capacity_bound {α : Type} (N : ℕ) (ttl : ℚ) (v : α)
    (ops : List (Op α)) (hN : 1 ≤ N) :
    (applyOps (Cache.empty α N ttl) ops).store.length ≤ N
    ∧ (∀ (c : Cache α) (now : ℚ) (f : FlagId) (u : UserId) (r : α),
        c.max_size = N → containsKey (f, u) c.store = false →
        N ≤ c.store.length →
        (set_result c now f u r).store.length = c.store.length)
    ∧ ((List.range (N + 1)).foldl (fun c i => set_result c 0 i "u" v)
        (Cache.empty α N ttl)).store.length = N := by
  refine ⟨applyOps_length_le ops hN (Nat.zero_le N), ?_,
    insert_overflow_length N ttl v hN⟩
  intro c now f u r hms hc hge
  exact set_result_length_at_capacity now f u r hc (hms ▸ hge)
    (lt_of_lt_of_le (Nat.lt_of_lt_of_le Nat.zero_lt_one hN) hge)

/-- Witness for C1 at `N = 2`: a concrete run of three distinct inserts at
capacity two stays within the bound, and the overflow scenario leaves
exactly two entries. -/
theorem cache_capacity_bound_witness :
    1 ≤ 2
    ∧ (applyOps (Cache.empty ℕ 2 60)
        [Op.set 0 1 "a" 5, Op.set 0 2 "b" 6, Op.set 0 3 "c" 7]).store.length ≤ 2
    ∧ ((List.range 3).foldl (fun c i => set_result c 0 i "u" 9)
        (Cache.empty ℕ 2 60)).store.length = 2 :=
  ⟨by decide,
   (cache_capacity_bound 2 60 9
      [Op.set 0 1 "a" 5, Op.set 0 2 "b" 6, Op.set 0 3 "c" 7] (by decide)).1,
   (cache_capacity_bound 2 60 9
      [Op.set 0 1 "a" 5, Op.set 0 2 "b" 6, Op.set 0 3 "c" 7] (by decide)).2.2⟩

/-- C9: with `max_size = 0` (the configuration does not enforce positivity),
`set_result` on the empty store finds nothing to evict, still inserts, and
leaves one resident entry, exceeding `max_size`; so the capacity bound needs
`max_size ≥ 1`. -/
theorem max_size_zero_violates_bound {α : Type} (ttl now : ℚ) (f : FlagId)
    (u : UserId) (v : α) :
    (set_result (Cache.empty α 0 ttl) now f u v).store
      = [((f, u), (now + ttl, v))]
    ∧ (set_result (Cache.empty α 0 ttl) now f u v).store.length = 1
    ∧ (Cache.empty α 0 ttl).max_size = 0 :=
  ⟨rfl, rfl, rfl⟩

/-- C7: with `ttl = 0` every entry is stale on any strictly later lookup:
after `set_result` at time `t0`, a `get` at any `t1 > t0` returns absent. -/
theorem zero_ttl_disables_caching {α : Type} (c : Cache α) (t0 t1 : ℚ)
    (f : FlagId) (u : UserId) (v : α) (httl : c.ttl = 0) (ht : t0 < t1) :
    (get (set_result c t0 f u v) t1 f u).1 = none := by
  have hl : lookup (f, u) (set_result c t0 f u v).store = some (t0 + c.ttl, v) := by
    rw [set_result_store]
    exact lookup_insertKey_self _ _ _
  have hexp : is_expired t1 (t0 + c.ttl) = true := by
    rw [httl, add_zero]
    exact decide_eq_true ht
  rw [get_of_lookup_expired hl hexp]

/-- Witness for C7 at a concrete zero-ttl cache. -/
theorem zero_ttl_disables_caching_witness :
    (Cache.empty ℕ 10 0).ttl = 0 ∧ (0 : ℚ) < 1
    ∧ (get (set_result (Cache.empty ℕ 10 0) 0 3 "w" 8) 1 3 "w").1 = none :=
  ⟨rfl, by norm_num,
   zero_ttl_disables_caching (Cache.empty ℕ 10 0) 0 1 3 "w" 8 rfl (by norm_num)⟩

/-- C4: `set_result` on an already-resident key overwrites the entry and its
expiry in place with no eviction — every other entry is untouched and the
resident count is unchanged — and a later `set` absorbs an earlier one:
`set k v1; set k v2; get k` within the TTL yields `v2`. -/
theorem overwrite_absorbs {α : Type} (c : Cache α) (now : ℚ) (f : FlagId)
    (u : UserId) (v : α) (h : containsKey (f, u) c.store = true) :
    (set_result c now f u v).store
      = c.store.map (fun p => if p.1 = (f, u) then ((f, u), (now + c.ttl, v)) else p)
    ∧ (set_result c now f u v).store.length = c.store.length
    ∧ (∀ (t1 t2 t3 : ℚ) (v1 v2 : α), t3 ≤ t2 + c.ttl →
        (get (set_result (set_result c t1 f u v1) t2 f u v2) t3 f u).1 = some v2) := by
  have hcond : ¬(c.store.length ≥ c.max_size ∧ containsKey (f, u) c.store = false) := by
    rintro ⟨-, hfc⟩
    rw [h] at hfc
    cases hfc
  refine ⟨?_, ?_, ?_⟩
  · rw [set_result_store, if_neg hcond, insertKey, if_pos h]
  · rw [set_result_store, if_neg hcond, length_insertKey_of_contains _ h]
  · intro t1 t2 t3 v1 v2 ht3
    have hl : lookup (f, u) (set_result (set_result c t1 f u v1) t2 f u v2).store
        = some (t2 + (set_result c t1 f u v1).ttl, v2) := by
      rw [set_result_store]
      exact lookup_insertKey_self _ _ _
    rw [set_result_ttl] at hl
    have hfresh : is_expired t3 (t2 + c.ttl) = false :=
      decide_eq_false (not_lt.mpr ht3)
    rw [get_of_lookup_fresh hl hfresh]

/-- Witness for C4 at a concrete resident key. -/
theorem overwrite_absorbs_witness :
    containsKey (1, "a") (set_result (Cache.empty ℕ 4 60) 0 1 "a" 5).store = true
    ∧ (set_result (set_result (Cache.empty ℕ 4 60) 0 1 "a" 5) 0 1 "a" 6).store.length
      = (set_result (Cache.empty ℕ 4 60) 0 1 "a" 5).store.length
    ∧ (get (set_result (set_result (set_result (Cache.empty ℕ 4 60) 0 1 "a" 5)
        0 1 "a" 7) 0 1 "a" 8) 30 1 "a").1 = some 8 := by
  refine ⟨by decide, ?_, ?_⟩
  · exact (overwrite_absorbs (set_result (Cache.empty ℕ 4 60) 0 1 "a" 5)
      0 1 "a" 6 (by decide)).2.1
  · exact (overwrite_absorbs (set_result (Cache.empty ℕ 4 60) 0 1 "a" 5)
      0 1 "a" 6 (by decide)).2.2 0 0 30 7 8
      (show (30 : ℚ) ≤ 0 + (60 : ℚ) by norm_num)

/-- C2: a key on which `set_result` was never called is absent from `get`;
and after `set(k, v)` at `t0`, a `get(k)` at `t1` with strictly less than
`ttl` elapsed — the entry for `k` unchanged by the intervening operations —
returns exactly `v`. -/
theorem cache_miss_then_hit {α : Type} (N : ℕ) (ttl : ℚ) (k : Key)
    (ops : List (Op α)) (now : ℚ)
    (hops : ∀ op ∈ ops, Op.setsKey op k = false) :
    (get (applyOps (Cache.empty α N ttl) ops) now k.1 k.2).1 = none
    ∧ (∀ (c : Cache α) (t0 t1 : ℚ) (f : FlagId) (u : UserId) (v : α)
        (mid : List (Op α)),
        lookup (f, u) (applyOps (set_result c t0 f u v) mid).store
          = lookup (f, u) (set_result c t0 f u v).store →
        t1 < t0 + c.ttl →
        (get (applyOps (set_result c t0 f u v) mid) t1 f u).1 = some v) := by
  constructor
  · have hcont := containsKey_applyOps_of_not_sets ops hops
      (show containsKey k (Cache.empty α N ttl).store = false from rfl)
    rw [get_of_lookup_none (lookup_eq_none_of_not_contains hcont)]
  · intro c t0 t1 f u v mid hframe ht
    have hl : lookup (f, u) (set_result c t0 f u v).store
        = some (t0 + c.ttl, v) := by
      rw [set_result_store]
      exact lookup_insertKey_self _ _ _
    rw [hl] at hframe
    have hfresh : is_expired t1 (t0 + c.ttl) = false :=
      decide_eq_false (not_lt.mpr (le_of_lt ht))
    rw [get_of_lookup_fresh hframe hfresh]

/-- Witness for C2: a never-set key misses; a set key hits within the TTL. -/
theorem cache_miss_then_hit_witness :
    (get (applyOps (Cache.empty ℕ 2 60) []) 0 1 "a").1 = none
    ∧ (get (applyOps (set_result (Cache.empty ℕ 2 60) 0 1 "a" 7) []) 30 1 "a").1
      = some 7 :=
  ⟨(cache_miss_then_hit 2 60 (1, "a") [] 0
      (fun op h => absurd h (List.not_mem_nil op))).1,
   (cache_miss_then_hit 2 60 (1, "a") [] 0
      (fun op h => absurd h (List.not_mem_nil op))).2
     (Cache.empty ℕ 2 60) 0 30 1 "a" 7 [] rfl
     (show (30 : ℚ) < 0 + 60 by norm_num)⟩

/-- C3: an entry inserted at `t0` with TTL `T` is absent from a `get` at any
`t1 > t0 + T`; the expired entry is deleted from the store as a side effect,
so every later `get` of the key also misses. -/
theorem expiry_deletes_entry {α : Type} (c : Cache α) (t0 t1 : ℚ)
    (f : FlagId) (u : UserId) (v : α)
    (hwf : (c.store.map (·.1)).Nodup) (ht : t0 + c.ttl < t1) :
    (get (set_result c t0 f u v) t1 f u).1 = none
    ∧ lookup (f, u) ((get (set_result c t0 f u v) t1 f u).2).store = none
    ∧ (∀ t2 : ℚ, (get ((get (set_result c t0 f u v) t1 f u).2) t2 f u).1 = none) := by
  have hl : lookup (f, u) (set_result c t0 f u v).store
      = some (t0 + c.ttl, v) := by
    rw [set_result_store]
    exact lookup_insertKey_self _ _ _
  have hexp : is_expired t1 (t0 + c.ttl) = true := decide_eq_true ht
  have hget := get_of_lookup_expired hl hexp
  have hwf' := nodupKeys_set_result t0 f u v hwf
  have herase : lookup (f, u) (eraseKey (f, u) (set_result c t0 f u v).store)
      = none := lookup_eraseKey_self hwf'
  rw [hget]
  exact ⟨rfl, herase, fun t2 => by rw [get_of_lookup_none herase]⟩

/-- Witness for C3 at a concrete expired entry. -/
theorem expiry_deletes_entry_witness :
    ((Cache.empty ℕ 2 60).store.map (·.1)).Nodup
    ∧ (get (set_result (Cache.empty ℕ 2 60) 0 1 "a" 7) 100 1 "a").1 = none
    ∧ lookup (1, "a")
        ((get (set_result (Cache.empty ℕ 2 60) 0 1 "a" 7) 100 1 "a").2).store
      = none :=
  ⟨List.nodup_nil,
   (expiry_deletes_entry (Cache.empty ℕ 2 60) 0 100 1 "a" 7 List.nodup_nil
      (show (0 : ℚ) + 60 < 100 by norm_num)).1,
   (expiry_deletes_entry (Cache.empty ℕ 2 60) 0 100 1 "a" 7 List.nodup_nil
      (show (0 : ℚ) + 60 < 100 by norm_num)).2.1⟩

/-- C5: `invalidate_one` removes exactly the entry of its composite key and
keeps every other entry unchanged in place; it is idempotent, a no-op on an
absent key, and a subsequent `get` of the key misses. -/
theorem invalidate_one_exact {α : Type} (c : Cache α) (f : FlagId)
    (u : UserId) (hwf : (c.store.map (·.1)).Nodup) :
    (invalidate_override c f u).store
      = c.store.filter (fun p => decide (p.1 ≠ (f, u)))
    ∧ invalidate_override (invalidate_override c f u) f u
      = invalidate_override c f u
    ∧ (containsKey (f, u) c.store = false → invalidate_override c f u = c)
    ∧ (∀ t : ℚ, (get (invalidate_override c f u) t f u).1 = none) := by
  refine ⟨eraseKey_eq_filter hwf, ?_, ?_, ?_⟩
  · have hnc : containsKey (f, u) (eraseKey (f, u) c.store) = false :=
      containsKey_eraseKey_self hwf
    simp only [invalidate_override]
    rw [eraseKey_of_not_contains hnc]
  · intro hnc2
    simp only [invalidate_override]
    rw [eraseKey_of_not_contains hnc2]
  · intro t
    rw [get_of_lookup_none (lookup_eraseKey_self hwf)]

/-- Witness for C5 on a concrete two-user store for one flag. -/
theorem invalidate_one_exact_witness :
    ((Cache.mk 10 60 [((1, "a"), (60, 5)), ((1, "b"), (60, 6))]
        : Cache ℕ).store.map (·.1)).Nodup
    ∧ (invalidate_override
        (Cache.mk 10 60 [((1, "a"), (60, 5)), ((1, "b"), (60, 6))]) 1 "a").store
      = ((Cache.mk 10 60 [((1, "a"), (60, 5)), ((1, "b"), (60, 6))]
          : Cache ℕ).store.filter (fun p => decide (p.1 ≠ (1, "a"))))
    ∧ (∀ t : ℚ, (get (invalidate_override
        (Cache.mk 10 60 [((1, "a"), (60, 5)), ((1, "b"), (60, 6))]) 1 "a")
        t 1 "a").1 = none) :=
  ⟨by decide,
   (invalidate_one_exact
      (Cache.mk 10 60 [((1, "a"), (60, 5)), ((1, "b"), (60, 6))]) 1 "a"
      (by decide)).1,
   (invalidate_one_exact
      (Cache.mk 10 60 [((1, "a"), (60, 5)), ((1, "b"), (60, 6))]) 1 "a"
      (by decide)).2.2.2⟩

/-- C6: `invalidate_flag` removes exactly the resident entries whose key has
the given `flag_id` — every user of that flag misses afterwards — and keeps
every entry of any other flag unchanged in place. -/
theorem invalidate_flag_exact {α : Type} (c : Cache α) (fid : FlagId)
    (hwf : (c.store.map (·.1)).Nodup) :
    (invalidate_flag c fid).store
      = c.store.filter (fun p => decide (p.1.1 ≠ fid))
    ∧ (∀ u2 : UserId, lookup (fid, u2) (invalidate_flag c fid).store = none)
    ∧ (∀ p ∈ c.store, p.1.1 ≠ fid → p ∈ (invalidate_flag c fid).store) := by
  have hmain : (invalidate_flag c fid).store
      = c.store.filter (fun p => decide (p.1.1 ≠ fid)) :=
    foldl_eraseKey_filter_keys fid c.store hwf
  refine ⟨hmain, ?_, ?_⟩
  · intro u2
    apply lookup_eq_none_of_not_contains
    rw [hmain, containsKey_eq_false_iff]
    intro p hp
    have hpf : p.1.1 ≠ fid := by simpa using (List.mem_filter.mp hp).2
    intro hcontra
    exact hpf (by rw [hcontra])
  · intro p hp hpne
    rw [hmain]
    exact List.mem_filter.mpr ⟨hp, by simpa using hpne⟩

/-- Witness for C6 on a store holding two users of flag 1 and one of flag 2. -/
theorem invalidate_flag_exact_witness :
    ((Cache.mk 10 60 [((1, "a"), (60, 5)), ((1, "b"), (60, 6)),
        ((2, "a"), (60, 7))] : Cache ℕ).store.map (·.1)).Nodup
    ∧ (invalidate_flag (Cache.mk 10 60 [((1, "a"), (60, 5)), ((1, "b"), (60, 6)),
        ((2, "a"), (60, 7))]) 1).store
      = ((Cache.mk 10 60 [((1, "a"), (60, 5)), ((1, "b"), (60, 6)),
          ((2, "a"), (60, 7))] : Cache ℕ).store.filter
            (fun p => decide (p.1.1 ≠ 1))) :=
  ⟨by decide,
   (invalidate_flag_exact (Cache.mk 10 60 [((1, "a"), (60, 5)),
      ((1, "b"), (60, 6)), ((2, "a"), (60, 7))]) 1 (by decide)).1⟩

/-- C10: evaluating a flag name for which no flag exists fails with a 404
error and leaves the cache state completely unchanged — no insertion, no
lazy deletion, no invalidation — and the request performs no cache step at
all. -/
theorem evaluate_missing_flag_atomic (db : DB) (c : Cache EvalResult)
    (now : ℚ) (n : String) (u : UserId) (h : db.findFlagByName n = none) :
    (evaluate_flag db c now n u).1 = .error 404
    ∧ (evaluate_flag db c now n u).2.1 = c
    ∧ (evaluate_flag db c now n u).2.2 = [.db_flag_query n] := by
  rw [evaluate_flag_of_no_flag h]
  exact ⟨rfl, rfl, rfl⟩

/-- Witness for C10 on an empty database. -/
theorem evaluate_missing_flag_atomic_witness :
    (DB.mk [] []).findFlagByName "ghost" = none
    ∧ (evaluate_flag (DB.mk [] []) (Cache.empty EvalResult 10 60)
        0 "ghost" "u").1 = .error 404
    ∧ (evaluate_flag (DB.mk [] []) (Cache.empty EvalResult 10 60)
        0 "ghost" "u").2.1 = Cache.empty EvalResult 10 60 :=
  ⟨rfl,
   (evaluate_missing_flag_atomic (DB.mk [] []) (Cache.empty EvalResult 10 60)
      0 "ghost" "u" rfl).1,
   (evaluate_missing_flag_atomic (DB.mk [] []) (Cache.empty EvalResult 10 60)
      0 "ghost" "u" rfl).2.1⟩

/-- C8 counterexample: at a concrete database holding flag `"f"` and an
empty cache, the trace of `evaluate` opens with the flag-by-name database
query, so the cache is not consulted before any database round-trip even
though the request does consult the cache later. -/
theorem evaluate_cache_first_counterexample :
    cacheConsultedBeforeDb
      (evaluate_flag (DB.mk [FeatureFlag.mk 1 "f" true] [])
        (Cache.empty EvalResult 10 60) 0 "f" "u").2.2 = false
    ∧ ((evaluate_flag (DB.mk [FeatureFlag.mk 1 "f" true] [])
        (Cache.empty EvalResult 10 60) 0 "f" "u").2.2.head?.map Ev.isDb
      = some true)
    ∧ (evaluate_flag (DB.mk [FeatureFlag.mk 1 "f" true] [])
        (Cache.empty EvalResult 10 60) 0 "f" "u").2.2.any Ev.isCacheGet
      = true := by
  exact ⟨rfl, rfl, rfl⟩

/-- C8 (amended): `evaluate` issues the flag-by-name database query first; it
consults the cache immediately after that query and before any further
database work, and only on a cache miss does it issue the override query,
compute the result and populate the cache, while a hit performs no override
query and no cache write. -/
theorem evaluate_db_then_cache (db : DB) (c : Cache EvalResult) (now : ℚ)
    (n : String) (u : UserId) :
    (evaluate_flag db c now n u).2.2.head? = some (.db_flag_query n)
    ∧ (db.findFlagByName n = none →
        (evaluate_flag db c now n u).2.2 = [.db_flag_query n])
    ∧ (∀ flag, db.findFlagByName n = some flag →
        (∀ r c₁, FlagCache.get c now flag.id u = (some r, c₁) →
          (evaluate_flag db c now n u).2.2
            = [.db_flag_query n, .cache_get flag.id u]
          ∧ (evaluate_flag db c now n u).1 = .ok r
          ∧ (evaluate_flag db c now n u).2.1 = c₁)
        ∧ (∀ c₁, FlagCache.get c now flag.id u = (none, c₁) →
          (evaluate_flag db c now n u).2.2
            = [.db_flag_query n, .cache_get flag.id u,
               .db_override_query flag.id u, .cache_set flag.id u]
          ∧ (∃ resp : EvalResult, (evaluate_flag db c now n u).1 = .ok resp
              ∧ (evaluate_flag db c now n u).2.1
                = set_result c₁ now flag.id u resp))) := by
  refine ⟨?_, ?_, ?_⟩
  · rcases hf : db.findFlagByName n with _ | flag
    · rw [evaluate_flag_of_no_flag hf]
      rfl
    · rcases hg : FlagCache.get c now flag.id u with ⟨o, c₁⟩
      cases o with
      | some r =>
        rw [evaluate_flag_of_hit hf hg]
        rfl
      | none =>
        rcases ho : db.findOverride flag.id u with _ | ov
        · rw [evaluate_flag_of_miss_default hf hg ho]
          rfl
        · rw [evaluate_flag_of_miss_override hf hg ho]
          rfl
  · intro hf
    rw [evaluate_flag_of_no_flag hf]
  · intro flag hf
    constructor
    · intro r c₁ hg
      rw [evaluate_flag_of_hit hf hg]
      exact ⟨rfl, rfl, rfl⟩
    · intro c₁ hg
      rcases ho : db.findOverride flag.id u with _ | ov
      · rw [evaluate_flag_of_miss_default hf hg ho]
        exact ⟨rfl, ⟨flag.is_enabled, flag.id, n, u, "default"⟩, rfl, rfl⟩
      · rw [evaluate_flag_of_miss_override hf hg ho]
        exact ⟨rfl, ⟨ov.is_enabled, flag.id, n, u, "override"⟩, rfl, rfl⟩

/-- Witness for the amended C8: a concrete miss request produces exactly the
flag query, cache lookup, override query, cache write sequence. -/
theorem evaluate_db_then_cache_witness :
    (DB.mk [FeatureFlag.mk 1 "f" true] []).findFlagByName "f"
      = some (FeatureFlag.mk 1 "f" true)
    ∧ (evaluate_flag (DB.mk [FeatureFlag.mk 1 "f" true] [])
        (Cache.empty EvalResult 10 60) 0 "f" "u").2.2
      = [.db_flag_query "f", .cache_get 1 "u",
         .db_override_query 1 "u", .cache_set 1 "u"] :=
  ⟨rfl,
   (((evaluate_db_then_cache (DB.mk [FeatureFlag.mk 1 "f" true] [])
        (Cache.empty EvalResult 10 60) 0 "f" "u").2.2
      (FeatureFlag.mk 1 "f" true) rfl).2
      (Cache.empty EvalResult 10 60) rfl).1⟩
